import Mathlib

/-!
Verification development for the trait-combination generation engine of the
AnimatedNftMaker repository. The definitions below are a shallow embedding of
the TypeScript source, chiefly `TraitSelector` (generateCombinations,
generateSingleCombination, the five rule applications, weightedRandomSelect,
getCombinationKey) and `LayerProcessor.loopFramesToRequiredCount` together
with `LayerProcessor.getAvailableTraits` (the cached catalog reads).

Modelling conventions:
- JavaScript numbers that take part in weight arithmetic are modelled as `ℚ`.
- JavaScript objects used as string-keyed rule tables are modelled as
  association lists in insertion order; property lookup is `assocLookup`.
- The mutable per-category trait cache of `LayerProcessor.getAvailableTraits`
  is threaded explicitly as a value of type `Cache`. Array values obtained
  from the cache are aliases of the cached arrays in the source, so an
  in-place `push` on such an array is modelled as a `cacheUpdate` of the
  corresponding entry. `TraitSelector.traitCache` stores exactly the array
  references returned by `LayerProcessor.getAvailableTraits` (which never
  replaces an entry once set), so one cache models both maps.
- Exceptions are modelled with `Except GeneratorError`.
- One call of `Math.random()` per weighted selection is modelled by a stream
  `rand : ℕ → ℚ` indexed by the category position of the attempt.
-/

namespace NftMaker

/-- One selectable trait value (the fields of the source `Trait` that the
generation engine reads: `type`, `name`, `weight`; `path` and `frames` are
never consulted by the selector and are omitted). -/
structure Trait where
  type : String
  name : String
  weight : ℚ
deriving DecidableEq, Repr

/-- Error kinds used by the selector (subset of the source `ErrorType`). -/
inductive ErrorType where
  | PROCESSING_ERROR
  | VALIDATION_ERROR
deriving DecidableEq, Repr

/-- The source `GeneratorError` restricted to the fields the selector reads:
its kind, its message and the `recoverable` flag. -/
structure GeneratorError where
  errorType : ErrorType
  message : String
  recoverable : Bool
deriving DecidableEq, Repr

/-- Rule tables of the source `GeneratorConfig` consumed by `TraitSelector`.
Optional rule tables are `Option` (absent field); present tables are
association lists in object-literal insertion order. -/
structure GeneratorConfig where
  trait_processing_order : List String
  incompatible_traits : Option (List (String × List String))
  forced_pairings : Option (List (String × String))
  dependent_traits : Option (List (String × String))
  exclusive_groups : Option (List (String × List String))
  conditional_rarity : Option (List (String × List (String × ℚ)))

/-- Property lookup on a string-keyed object modelled as an association list. -/
def assocLookup {α : Type} (m : List (String × α)) (k : String) : Option α :=
  match m with
  | [] => none
  | p :: ps => if p.1 = k then some p.2 else assocLookup ps k

/-- Split of a character list at every occurrence of a separator character
(the splitter underlying the model of the JavaScript `split` with a
one-character separator string). -/
def splitCharList (sep : Char) : List Char → List (List Char)
  | [] => [[]]
  | c :: cs =>
      if c = sep then [] :: splitCharList sep cs
      else
        match splitCharList sep cs with
        | [] => [[c]]
        | l :: ls => (c :: l) :: ls

/-- Model of the JavaScript `s.split(sep)` for a one-character separator
(agreeing with it on every input: the empty string yields `[""]`, separators
at the ends yield empty pieces). -/
def splitOnChar (sep : Char) (s : String) : List String :=
  (splitCharList sep s.data).map String.mk

/-- Model of the JavaScript `trim`: drop whitespace characters from both
ends. -/
def trimChars (s : String) : String :=
  String.mk (((s.data.dropWhile Char.isWhitespace).reverse.dropWhile
    Char.isWhitespace).reverse)

/-- Lexicographic order on character lists by code point (the comparison of
the default JavaScript array sort, which compares by UTF-16 code unit; the
two agree on all keys occurring here, which are ASCII). -/
def charListLe : List Char → List Char → Bool
  | [], _ => true
  | _ :: _, [] => false
  | a :: as, b :: bs => if a < b then true else if b < a then false else charListLe as bs

/-- String comparison used by the canonical-signature sort. -/
def stringLe (a b : String) : Bool :=
  charListLe a.data b.data

/-- Clean trait name: `(trait.name || "").split("#")[0]?.trim() || ""` from
the source helper `getTraitKeys`. -/
def cleanTraitName (s : String) : String :=
  trimChars ((splitOnChar '#' s).headD "")

/-- Source helper `getTraitKeys`: returns `(nameOnly, withType)` or `none`
when the cleaned name is empty. -/
def getTraitKeys (t : Trait) : Option (String × String) :=
  let cleanName := cleanTraitName t.name
  if cleanName = "" then none
  else some (cleanName, t.type ++ ":" ++ cleanName)

/-- Source helper `getTraitNameFromConfigKey`: the part after the colon when
one is present, the whole key otherwise, trimmed. -/
def getTraitNameFromConfigKey (key : String) : String :=
  let parts := splitOnChar ':' key
  if parts.length > 1 then trimChars (parts.getD 1 "") else trimChars (parts.getD 0 "")

/-- Shared form of the source expressions
`parts.length > 1 ? parts[1] : parts[0]` applied to a colon-split key (used
for the forced and the dependent target name). -/
def configKeyName (key : String) : String :=
  let parts := splitOnChar ':' key
  if parts.length > 1 then parts.getD 1 "" else parts.getD 0 ""

/-- Shared body of the three identical trigger checks in the source
(`applyForcedPairings`, `applyDependentTraits`, `applyConditionalRarity`):
some selected trait matches the trigger key by compound key or by bare name. -/
def triggerIsSelected (selectedTraits : List Trait) (triggerKey : String) : Bool :=
  selectedTraits.any fun t =>
    match getTraitKeys t with
    | none => false
    | some (nameOnly, withType) =>
        withType == triggerKey || nameOnly == getTraitNameFromConfigKey triggerKey

/-- Shared body of the two identical already-selected checks in the source
(`applyForcedPairings`, `applyDependentTraits`). -/
def isAlreadySelected (selectedTraits : List Trait) (fullKey name : String) : Bool :=
  selectedTraits.any fun t =>
    match getTraitKeys t with
    | none => false
    | some (nameOnly, withType) => withType == fullKey || nameOnly == name

/-- Source `weightedRandomSelect` scan loop: subtract each weight from the
running remainder and return the first trait at which it drops to zero or
below; `none` when the scan falls through. -/
def selectScan (random : ℚ) : List Trait → Option Trait
  | [] => none
  | t :: ts => if random - t.weight ≤ 0 then some t else selectScan (random - t.weight) ts

/-- Source `TraitSelector.weightedRandomSelect`. The random draw
`Math.random()` is the parameter `r`; the source multiplies it by the total
weight. Empty input throws; a single candidate is returned without consuming
randomness; otherwise the scan runs with fallback to the last candidate. -/
def weightedRandomSelect (r : ℚ) : List Trait → Except GeneratorError Trait
  | [] => .error ⟨.PROCESSING_ERROR, "No traits available for selection", false⟩
  | [t] => .ok t
  | t1 :: t2 :: ts =>
      let traits := t1 :: t2 :: ts
      let totalWeight := traits.foldl (fun s t => s + t.weight) 0
      let random := r * totalWeight
      .ok ((selectScan random traits).getD (traits.getLastD t1))

/-- Source `LayerProcessor.loopFramesToRequiredCount`. The truthiness check
`if (frame)` of the source skips a frame that is the empty string; an
out-of-range read (impossible here since the index is taken mod the length)
and the empty string are both falsy and are modelled by the default "". -/
def loopFramesToRequiredCount (requiredFrameCount : ℕ) (originalFrames : List String) :
    List String :=
  if originalFrames.length = 0 then []
  else if originalFrames.length ≥ requiredFrameCount then
    originalFrames.take requiredFrameCount
  else
    (List.range requiredFrameCount).foldl
      (fun loopedFrames i =>
        let frame := originalFrames.getD (i % originalFrames.length) ""
        if frame ≠ "" then loopedFrames ++ [frame] else loopedFrames)
      []

deriving instance DecidableEq for Except

/-- The per-category trait cache of `LayerProcessor` (and, through array
aliasing, of `TraitSelector.traitCache`): category name to cached list. -/
abbrev Cache : Type := List (String × List Trait)

/-- Cache lookup, first matching entry. -/
def cacheLookup (c : Cache) (k : String) : Option (List Trait) :=
  assocLookup c k

/-- Replace the cached list of a category in place (the model of an in-place
mutation of the cached array object). -/
def cacheUpdate (c : Cache) (k : String) (v : List Trait) : Cache :=
  (c : List (String × List Trait)).map fun e => if e.1 = k then (k, v) else e

/-- Source `LayerProcessor.getAvailableTraits` after successful validation:
on a cache hit return the cached list, otherwise collect the leaf traits of
the category (modelled by the oracle `base`, with `base k = []` when the
category is absent from the hierarchy) and cache them. -/
def getAvailableTraits (base : String → List Trait) (c : Cache) (traitType : String) :
    List Trait × Cache :=
  match cacheLookup c traitType with
  | some l => (l, c)
  | none => (base traitType, (traitType, base traitType) :: c)

/-- Source `TraitSelector.applyIncompatibilityRules`: keep a candidate unless
some already selected trait conflicts with it in either declared direction,
each side matched by compound key or by bare name. -/
def applyIncompatibilityRules (cfg : GeneratorConfig)
    (availableTraits selectedTraits : List Trait) : List Trait :=
  match cfg.incompatible_traits with
  | none => availableTraits
  | some incompat =>
      availableTraits.filter fun trait =>
        match getTraitKeys trait with
        | none => true
        | some (tName, tType) =>
            let isExcluded := selectedTraits.any fun selected =>
              match getTraitKeys selected with
              | none => false
              | some (sName, sType) =>
                  let selectedRules :=
                    match assocLookup incompat sType with
                    | some v => some v
                    | none => assocLookup incompat sName
                  let availableRules :=
                    match assocLookup incompat tType with
                    | some v => some v
                    | none => assocLookup incompat tName
                  let check1 :=
                    match selectedRules with
                    | some rs => rs.contains tType || rs.contains tName
                    | none => false
                  let check2 :=
                    match availableRules with
                    | some rs => rs.contains sType || rs.contains sName
                    | none => false
                  check1 || check2
            !isExcluded

/-- Source `TraitSelector.applyExclusiveGroupRules`: find the group whose
member list contains the current category; if some selected trait key matches
the group list, filter out every candidate whose key matches it too. -/
def applyExclusiveGroupRules (cfg : GeneratorConfig) (traitType : String)
    (availableTraits selectedTraits : List Trait) : List Trait :=
  match cfg.exclusive_groups with
  | none => availableTraits
  | some groups =>
      match groups.find? (fun g => g.2.contains traitType) with
      | none => availableTraits
      | some g =>
          let group := g.2
          let selectedFromGroup := selectedTraits.any fun selected =>
            match getTraitKeys selected with
            | none => false
            | some (sName, sType) => group.contains sName || group.contains sType
          if selectedFromGroup then
            availableTraits.filter fun trait =>
              match getTraitKeys trait with
              | none => true
              | some (tName, tType) => !(group.contains tName) && !(group.contains tType)
          else availableTraits

/-- Overwrite the weight of the first trait satisfying the predicate (the
model of `find` followed by an in-place weight assignment on the deep clone). -/
def setWeightOfFirst (p : Trait → Bool) (w : ℚ) : List Trait → List Trait
  | [] => []
  | t :: ts => if p t then { t with weight := w } :: ts else t :: setWeightOfFirst p w ts

/-- Source `TraitSelector.applyConditionalRarity`: on a deep clone of the
candidate list (value semantics here), for every rule whose trigger is
selected, set the weight of the first matching target. The source
destructuring gives `targetName = undefined` when the target key has no
colon, in which case the name branch of the match can never succeed. -/
def applyConditionalRarity (cfg : GeneratorConfig)
    (availableTraits selectedTraits : List Trait) : List Trait :=
  match cfg.conditional_rarity with
  | none => availableTraits
  | some rules =>
      rules.foldl
        (fun adjustedTraits rule =>
          let conditionKey := rule.1
          let adjustments := rule.2
          let conditionIsMet := triggerIsSelected selectedTraits conditionKey
          if conditionIsMet then
            adjustments.foldl
              (fun adjusted adj =>
                let targetKey := adj.1
                let newWeight := adj.2
                let parts := splitOnChar ':' targetKey
                let targetType := parts.getD 0 ""
                let targetName := parts.get? 1
                setWeightOfFirst
                  (fun trait =>
                    match getTraitKeys trait with
                    | none => false
                    | some (tName, tType) =>
                        tType == targetKey ||
                        (match targetName with
                         | some tn => tName == tn && trait.type == targetType
                         | none => false))
                  newWeight adjusted)
              adjustedTraits
          else adjustedTraits)
        availableTraits

/-- Source `TraitSelector.applyForcedPairings`: scan the forced-pairing rules
in order; when a trigger is selected, its forced key targets the current
category and is not already selected, resolve the forced trait from the
catalog and return it; on any failed condition continue with the next rule. -/
def applyForcedPairingsGo (base : String → List Trait) (traitType : String)
    (selectedTraits : List Trait) :
    List (String × String) → Cache → Option Trait × Cache
  | [], c => (none, c)
  | (triggerKey, forcedKey) :: rest, c =>
      if triggerIsSelected selectedTraits triggerKey then
        let forcedType := (splitOnChar ':' forcedKey).getD 0 ""
        let forcedName := configKeyName forcedKey
        if forcedType = traitType then
          if !(isAlreadySelected selectedTraits forcedKey forcedName) then
            let r := getAvailableTraits base c traitType
            match r.1.find? (fun t => (splitOnChar '#' t.name).headD "" == forcedName) with
            | some forcedTrait => (some forcedTrait, r.2)
            | none => applyForcedPairingsGo base traitType selectedTraits rest r.2
          else applyForcedPairingsGo base traitType selectedTraits rest c
        else applyForcedPairingsGo base traitType selectedTraits rest c
      else applyForcedPairingsGo base traitType selectedTraits rest c

/-- Wrapper handling the absent `forced_pairings` table. -/
def applyForcedPairings (cfg : GeneratorConfig) (base : String → List Trait)
    (traitType : String) (selectedTraits : List Trait) (c : Cache) :
    Option Trait × Cache :=
  match cfg.forced_pairings with
  | none => (none, c)
  | some pairings => applyForcedPairingsGo base traitType selectedTraits pairings c

/-- Body of the rule loop of the source `applyDependentTraits` as it acts on
the cache: when the trigger is selected and the dependent option is not, the
resolved dependent trait is pushed onto the fetched catalog list — which is
the cached array itself, so the push is a `cacheUpdate` of its entry. -/
def dependentRuleStep (base : String → List Trait) (selectedTraits : List Trait)
    (cache : Cache) (rule : String × String) : Cache :=
  let triggerKey := rule.1
  let dependentKey := rule.2
  if triggerIsSelected selectedTraits triggerKey then
    let dependentType := (splitOnChar ':' dependentKey).getD 0 ""
    let dependentName := configKeyName dependentKey
    if !(isAlreadySelected selectedTraits dependentKey dependentName) then
      let r := getAvailableTraits base cache dependentType
      match r.1.find? (fun t => (splitOnChar '#' t.name).headD "" == dependentName) with
      | some dependentTrait => cacheUpdate r.2 dependentType (r.1 ++ [dependentTrait])
      | none => r.2
    else cache
  else cache

/-- Source `TraitSelector.applyDependentTraits`. In the source, the inner
`const dependentTraits` (the catalog list fetched from the layer processor)
shadows the outer accumulator of the same name, so the `push` of the resolved
trait lands on the cached catalog array (the cache effect of
`dependentRuleStep`) and the outer accumulator is returned still empty. -/
def applyDependentTraits (cfg : GeneratorConfig) (base : String → List Trait)
    (selectedTraits : List Trait) (c : Cache) : List Trait × Cache :=
  match cfg.dependent_traits with
  | none => ([], c)
  | some deps => ([], deps.foldl (dependentRuleStep base selectedTraits) c)

/-- One generated combination: the source `TraitCombination` restricted to
the fields the claims concern (`id`, `traits`; rarity, metadata and the
creation timestamp are derived data never read back by the engine). -/
structure Combination where
  id : ℕ
  traits : List Trait
deriving DecidableEq, Repr

instance : Inhabited Combination := ⟨⟨0, []⟩⟩

/-- Source loop body of `generateSingleCombination` over the layers of
`trait_processing_order`. Pushing an empty dependent list is the identity, so
the conditional push of the source is modelled by an unconditional append of
the (always computed) dependent list. `idx` is the position of the category,
indexing the random stream. -/
def generateLayers (cfg : GeneratorConfig) (base : String → List Trait) (rand : ℕ → ℚ) :
    List String → ℕ → List Trait → Cache → Except GeneratorError (List Trait) × Cache
  | [], _, selectedTraits, c => (.ok selectedTraits, c)
  | traitType :: rest, idx, selectedTraits, c =>
      let r1 := getAvailableTraits base c traitType
      let r2 := applyForcedPairings cfg base traitType selectedTraits r1.2
      match r2.1 with
      | some forcedTrait =>
          generateLayers cfg base rand rest (idx + 1) (selectedTraits ++ [forcedTrait]) r2.2
      | none =>
          let r3 := applyDependentTraits cfg base selectedTraits r2.2
          let dependentTraits := r3.1
          let selectedTraits1 := selectedTraits ++ dependentTraits
          if dependentTraits.length > 0 &&
             dependentTraits.any (fun t => t.type == traitType) then
            generateLayers cfg base rand rest (idx + 1) selectedTraits1 r3.2
          else
            let traits1 := applyIncompatibilityRules cfg r1.1 selectedTraits1
            let traits2 := applyExclusiveGroupRules cfg traitType traits1 selectedTraits1
            let traits3 := applyConditionalRarity cfg traits2 selectedTraits1
            if traits3.length = 0 then
              (.error ⟨.PROCESSING_ERROR,
                "All traits filtered out for layer " ++ traitType ++ ". Retrying combination.",
                true⟩, r3.2)
            else
              match weightedRandomSelect (rand idx) traits3 with
              | .ok selectedTrait =>
                  generateLayers cfg base rand rest (idx + 1)
                    (selectedTraits1 ++ [selectedTrait]) r3.2
              | .error e => (.error e, r3.2)

/-- Source `TraitSelector.generateSingleCombination`: run the per-category
pipeline over the processing order and assemble the combination carrying the
id that was passed in (`createTraitCombination` stores the id unchanged). -/
def generateSingleCombination (cfg : GeneratorConfig) (base : String → List Trait)
    (rand : ℕ → ℚ) (id : ℕ) (c : Cache) : Except GeneratorError Combination × Cache :=
  match generateLayers cfg base rand cfg.trait_processing_order 0 [] c with
  | (.ok selectedTraits, c2) => (.ok ⟨id, selectedTraits⟩, c2)
  | (.error e, c2) => (.error e, c2)

/-- Ascending insertion of a string into a sorted list (the model of the
default lexicographic array sort of the source, which coincides with the
string order used here on the keys that occur). -/
def insertSorted (s : String) : List String → List String
  | [] => [s]
  | x :: xs => if stringLe s x then s :: x :: xs else x :: insertSorted s xs

/-- Sort a list of strings ascending. -/
def sortStrings (l : List String) : List String :=
  l.foldr insertSorted []

/-- Source `TraitSelector.getCombinationKey` on the trait list of a
combination: the sorted `type:name` pairs (with the `#` suffix stripped)
joined with a bar. -/
def getCombinationKey (traits : List Trait) : String :=
  String.intercalate "|"
    (sortStrings (traits.map fun t => t.type ++ ":" ++ ((splitOnChar '#' t.name).headD "")))

/-- The settlement of one generation attempt as the orchestrator sees it
through `Promise.allSettled`: a fulfilled combination value or a rejection
carrying the `recoverable` flag of the error (`false` also covers foreign
errors, which take the same logging branch). -/
inductive AttemptOutcome where
  | fulfilled (traits : List Trait)
  | rejected (recoverable : Bool)

/-- Orchestrator state owned by `generateCombinations`: the accepted list,
the persistent `usedCombinations` set (a list of keys), and the attempt,
duplicate and fatal-log counters (`fatalLogged` counts the calls of
`logger.error` in the rejection branch). -/
structure GenState where
  combinations : List Combination
  used : List String
  attempts : ℕ
  duplicates : ℕ
  fatalLogged : ℕ
deriving DecidableEq, Repr

/-- Processing of one settled batch result in the source result loop:
increment the attempt counter, then either accept a fresh combination (its
id was fixed at launch and is the `launchId` argument), count a duplicate,
skip a recoverable rejection, or log a fatal rejection. -/
def processResult (o : AttemptOutcome) (launchId : ℕ) (st : GenState) : GenState :=
  let st1 := { st with attempts := st.attempts + 1 }
  match o with
  | .fulfilled traits =>
      let key := getCombinationKey traits
      if st1.used.contains key then { st1 with duplicates := st1.duplicates + 1 }
      else { st1 with used := key :: st1.used,
                      combinations := st1.combinations ++ [⟨launchId, traits⟩] }
  | .rejected true => st1
  | .rejected false => { st1 with fatalLogged := st1.fatalLogged + 1 }

/-- One round of the source while loop: launch `min (min 50 count) remaining`
attempts whose ids are `combinations.length + i + 1` computed at launch, and
process their settlements in launch order. The outcome oracle is indexed by
the global launch position, which equals the attempt counter at round start
plus the batch slot. -/
def processRound (oracle : ℕ → AttemptOutcome) (count : ℕ) (st : GenState) : GenState :=
  let remaining := count - st.combinations.length
  let batchSize := min 50 count
  let currentBatchSize := min batchSize remaining
  let startLen := st.combinations.length
  let startAtt := st.attempts
  (List.range currentBatchSize).foldl
    (fun s i => processResult (oracle (startAtt + i)) (startLen + i + 1) s) st

/-- Fuel-indexed unfolding of the source while loop
`while (combinations.length < count && attempts < maxAttempts)`. -/
def genLoop (oracle : ℕ → AttemptOutcome) (count maxAttempts : ℕ) :
    ℕ → GenState → GenState
  | 0, st => st
  | fuel + 1, st =>
      if st.combinations.length < count ∧ st.attempts < maxAttempts then
        genLoop oracle count maxAttempts fuel (processRound oracle count st)
      else st

/-- Initial orchestrator state of one `generateCombinations` call: the
accepted list and the counters start empty, the `usedCombinations` set
persists on the instance and is the parameter. -/
def initialGenState (used0 : List String) : GenState :=
  ⟨[], used0, 0, 0, 0⟩

/-- Source `TraitSelector.generateCombinations` with `maxAttempts = count * 10`;
the fuel `count * 10 + 1` is sufficient (each round settles at least one
attempt), which the termination theorem below makes precise. -/
def generateCombinations (oracle : ℕ → AttemptOutcome) (count : ℕ)
    (used0 : List String) : GenState :=
  genLoop oracle count (count * 10) (count * 10 + 1) (initialGenState used0)

/-- The result-processing fold of one round, abstracted over the attempt
counter value `a` and accepted-list length `b` at round start (the source
computes launch ids from the latter and the oracle is indexed by the former). -/
def batchFold (oracle : ℕ → AttemptOutcome) (a b n : ℕ) (st : GenState) : GenState :=
  (List.range n).foldl
    (fun s i => processResult (oracle (a + i)) (b + i + 1) s) st

/-- Well-typedness of a cache: every cached trait carries the category it is
cached under (true of every cache arising in a run, since entries are
populated from the hierarchy of their category and grown only by re-pushing
members). -/
def CacheWT (c : Cache) : Prop :=
  ∀ p ∈ c, ∀ t ∈ p.2, t.type = p.1

/-- A trait that counts as Red in category bg for the incompatibility
scenario. -/
def IsRed (t : Trait) : Prop :=
  t.type = "bg" ∧ cleanTraitName t.name = "Red"

/-- A trait that counts as Robot in category body for the incompatibility
scenario. -/
def IsRobot (t : Trait) : Prop :=
  t.type = "body" ∧ cleanTraitName t.name = "Robot"

/-- A selection that does not contain both a Red bg trait and a Robot body
trait. -/
def NoRR (sel : List Trait) : Prop :=
  ¬((∃ t ∈ sel, IsRed t) ∧ (∃ t ∈ sel, IsRobot t))

/-- Concrete attempt oracle: the first attempt fails recoverably, the second
yields a Blue background, every later one yields a Red background. -/
def c2Oracle : ℕ → AttemptOutcome
  | 0 => .rejected true
  | 1 => .fulfilled [⟨"bg", "Blue", 1⟩]
  | _ => .fulfilled [⟨"bg", "Red", 1⟩]

/-- Concrete attempt oracle: the first attempt succeeds, every later one
fails recoverably. -/
def c5Oracle : ℕ → AttemptOutcome
  | 0 => .fulfilled [⟨"bg", "Blue", 1⟩]
  | _ => .rejected true

/-- Red background trait used by the concrete scenarios. -/
def redTrait : Trait := ⟨"bg", "Red", 1⟩

/-- Human body trait used by the concrete scenarios. -/
def humanTrait : Trait := ⟨"body", "Human", 1⟩

/-- Robot body trait used by the concrete scenarios. -/
def robotTrait : Trait := ⟨"body", "Robot", 1⟩

/-- Configuration with one dependent-trait rule mapping a Red background to
a Human body. -/
def depCfg : GeneratorConfig :=
  { trait_processing_order := ["bg", "body"]
    incompatible_traits := none
    forced_pairings := none
    dependent_traits := some [("bg:Red", "body:Human")]
    exclusive_groups := none
    conditional_rarity := none }

/-- Catalog hierarchy with a single Human body trait. -/
def depBase : String → List Trait :=
  fun s => if s = "body" then [humanTrait] else []

/-- Single-category configuration with no rule tables. -/
def oneCatCfg : GeneratorConfig :=
  { trait_processing_order := ["bg"]
    incompatible_traits := none
    forced_pairings := none
    dependent_traits := none
    exclusive_groups := none
    conditional_rarity := none }

/-- Catalog with one Red background trait. -/
def oneCatBase : String → List Trait :=
  fun s => if s = "bg" then [redTrait] else []

/-- Attempt oracle whose every attempt fulfills with the single Red trait. -/
def oneCatOracle : ℕ → AttemptOutcome :=
  fun _ => .fulfilled [redTrait]

/-- Configuration of the incompatibility scenario of the spec: Red
backgrounds conflict with Robot bodies. -/
def rrCfg : GeneratorConfig :=
  { trait_processing_order := ["bg", "body"]
    incompatible_traits := some [("bg:Red", ["body:Robot"])]
    forced_pairings := none
    dependent_traits := none
    exclusive_groups := none
    conditional_rarity := none }

/-- Catalog of the incompatibility scenario witness: one Red background,
a Robot and a Human body. -/
def rrBase : String → List Trait :=
  fun s =>
    if s = "bg" then [redTrait]
    else if s = "body" then [robotTrait, humanTrait] else []

/-- Attempt oracle whose every attempt fulfills with Red plus Human (the
outcome of the single deterministic attempt over `rrBase`). -/
def rrOracle : ℕ → AttemptOutcome :=
  fun _ => .fulfilled [redTrait, humanTrait]

/-! Generic list helpers used by several proofs below. -/

theorem foldl_push_nonempty (f : ℕ → String) (l : List ℕ) (a : List String)
    (h : ∀ i ∈ l, f i ≠ "") :
    l.foldl (fun acc i => if f i ≠ "" then acc ++ [f i] else acc) a = a ++ l.map f := by
  induction l generalizing a with
  | nil => simp
  | cons x xs ih =>
      have hx : f x ≠ "" := h x (by simp)
      simp only [List.foldl_cons, if_pos hx, List.map_cons]
      rw [ih _ (fun i hi => h i (by simp [hi]))]
      simp

/-! Claim C10: frame normalization. -/

/-- C10. Frame normalization: for a leaf with `k ≥ 1` original frames (frame
names are file names, hence non-empty strings) and configured required count
`r`, the normalized list has exactly `r` entries; it is the first `r`
original frames when `k ≥ r`, and entry `i` is `original[i mod k]` when
`k < r`. -/
theorem frame_normalization (required : ℕ) (frames : List String)
    (hk : 1 ≤ frames.length) (hne : ∀ f ∈ frames, f ≠ "") :
    (loopFramesToRequiredCount required frames).length = required ∧
    (required ≤ frames.length →
      loopFramesToRequiredCount required frames = frames.take required) ∧
    (frames.length < required → ∀ i, i < required →
      (loopFramesToRequiredCount required frames).getD i ""
        = frames.getD (i % frames.length) "") := by
  have hlen0 : ¬ frames.length = 0 := by omega
  by_cases hge : frames.length ≥ required
  · refine ⟨?_, fun _ => ?_, fun hlt => absurd hlt (by omega)⟩
    · simp only [loopFramesToRequiredCount, if_neg hlen0, if_pos hge, List.length_take]
      omega
    · simp [loopFramesToRequiredCount, hlen0, hge]
  · have hlt : frames.length < required := by omega
    have hmap : loopFramesToRequiredCount required frames
        = (List.range required).map (fun i => frames.getD (i % frames.length) "") := by
      simp only [loopFramesToRequiredCount, if_neg hlen0, if_neg hge]
      have := foldl_push_nonempty (fun i => frames.getD (i % frames.length) "")
        (List.range required) []
        (fun i _ => by
          show frames.getD (i % frames.length) "" ≠ ""
          have hmod : i % frames.length < frames.length := Nat.mod_lt _ (by omega)
          rw [List.getD_eq_getElem _ _ hmod]
          exact hne _ (List.getElem_mem _))
      simpa using this
    refine ⟨by simp [hmap], fun hge2 => absurd hge2 (by omega), fun _ i hi => ?_⟩
    rw [hmap]
    have hilt : i < ((List.range required).map
        (fun i => frames.getD (i % frames.length) "")).length := by simpa using hi
    rw [List.getD_eq_getElem _ _ hilt]
    simp

/-- Witness for C10 at the concrete example of the spec: three frames looped
to seven entries. -/
theorem frame_normalization_witness :
    (1 ≤ (["f0", "f1", "f2"] : List String).length ∧
      (loopFramesToRequiredCount 7 ["f0", "f1", "f2"]).length = 7) ∧
    loopFramesToRequiredCount 7 ["f0", "f1", "f2"]
      = ["f0", "f1", "f2", "f0", "f1", "f2", "f0"] :=
  ⟨⟨by decide,
    (frame_normalization 7 ["f0", "f1", "f2"] (by decide) (by decide)).1⟩,
   by decide⟩

/-! Claim C7: the all-zero-weight behavior of the sampler. -/

theorem foldl_weight_zero (l : List Trait) (q : ℚ) (h : ∀ u ∈ l, u.weight = 0) :
    l.foldl (fun s t => s + t.weight) q = q := by
  induction l generalizing q with
  | nil => rfl
  | cons x xs ih =>
      have hx : x.weight = 0 := h x (by simp)
      simp only [List.foldl_cons, hx, add_zero]
      exact ih q (fun u hu => h u (by simp [hu]))

/-- Counterexample to C7: over two candidates of weight zero the source
returns the FIRST candidate (the running remainder is already `0 - 0 ≤ 0` at
the first candidate), not the last one as claimed. -/
theorem weightedRandomSelect_counterexample :
    weightedRandomSelect (1/2) [⟨"bg", "A", 0⟩, ⟨"bg", "B", 0⟩]
      = .ok ⟨"bg", "A", 0⟩ ∧
    ([⟨"bg", "A", 0⟩, ⟨"bg", "B", 0⟩] : List Trait).getLastD ⟨"bg", "A", 0⟩
      = ⟨"bg", "B", 0⟩ ∧
    (⟨"bg", "A", 0⟩ : Trait) ≠ ⟨"bg", "B", 0⟩ := by
  refine ⟨?_, by decide, by decide⟩
  have hsum : ([⟨"bg", "A", 0⟩, ⟨"bg", "B", 0⟩] : List Trait).foldl
      (fun s t => s + t.weight) 0 = 0 :=
    foldl_weight_zero _ _ (by decide)
  simp only [weightedRandomSelect, hsum, mul_zero]
  have hscan : selectScan 0 ([⟨"bg", "A", 0⟩, ⟨"bg", "B", 0⟩] : List Trait)
      = some ⟨"bg", "A", 0⟩ := by
    simp [selectScan]
  simp [hscan]

/-- C7 amended: for every non-empty candidate list in which every weight is
zero, and for every value of the random draw, `weightedRandomSelect`
deterministically returns the FIRST candidate in iteration order. -/
theorem weightedRandomSelect_all_zero_first (r : ℚ) (t : Trait) (rest : List Trait)
    (hw : ∀ u ∈ t :: rest, u.weight = 0) :
    weightedRandomSelect r (t :: rest) = .ok t := by
  cases rest with
  | nil => rfl
  | cons t2 ts =>
      have htw : t.weight = 0 := hw t (by simp)
      have hsum : (t :: t2 :: ts).foldl (fun s u => s + u.weight) 0 = 0 :=
        foldl_weight_zero _ _ hw
      simp only [weightedRandomSelect, hsum, mul_zero]
      have : selectScan 0 (t :: t2 :: ts) = some t := by
        simp [selectScan, htw]
      simp [this]

/-- Witness for C7 amended at a concrete two-candidate zero-weight list. -/
theorem weightedRandomSelect_all_zero_first_witness :
    (∀ u ∈ ([⟨"bg", "A", 0⟩, ⟨"bg", "B", 0⟩] : List Trait), u.weight = 0) ∧
    weightedRandomSelect (3/4) [⟨"bg", "A", 0⟩, ⟨"bg", "B", 0⟩]
      = .ok ⟨"bg", "A", 0⟩ :=
  ⟨by decide,
   weightedRandomSelect_all_zero_first (3/4) ⟨"bg", "A", 0⟩ [⟨"bg", "B", 0⟩] (by decide)⟩

/-! Orchestrator lemmas: the round fold and the while loop. -/

theorem contains_iff_mem (l : List String) (a : String) :
    l.contains a = true ↔ a ∈ l :=
  List.elem_iff

theorem processResult_attempts (o : AttemptOutcome) (launchId : ℕ) (st : GenState) :
    (processResult o launchId st).attempts = st.attempts + 1 := by
  cases o with
  | fulfilled tr =>
      simp only [processResult]
      split <;> rfl
  | rejected r => cases r <;> rfl

theorem processResult_cases (o : AttemptOutcome) (launchId : ℕ) (st : GenState) :
    ((processResult o launchId st).combinations = st.combinations ∧
     (processResult o launchId st).used = st.used) ∨
    (∃ tr, o = .fulfilled tr ∧
      st.used.contains (getCombinationKey tr) = false ∧
      (processResult o launchId st).combinations
        = st.combinations ++ [⟨launchId, tr⟩] ∧
      (processResult o launchId st).used = getCombinationKey tr :: st.used) := by
  cases o with
  | fulfilled tr =>
      by_cases h : st.used.contains (getCombinationKey tr) = true
      · left
        have hm : getCombinationKey tr ∈ st.used := (contains_iff_mem _ _).mp h
        simp [processResult, hm]
      · have hm : getCombinationKey tr ∉ st.used :=
          fun hmem => h ((contains_iff_mem _ _).mpr hmem)
        right
        refine ⟨tr, rfl, by simpa using h, ?_, ?_⟩ <;>
          simp [processResult, hm]
  | rejected r => cases r <;> exact Or.inl ⟨rfl, rfl⟩

theorem processResult_len_le (o : AttemptOutcome) (launchId : ℕ) (st : GenState) :
    (processResult o launchId st).combinations.length ≤ st.combinations.length + 1 := by
  rcases processResult_cases o launchId st with ⟨h, _⟩ | ⟨tr, _, _, h, _⟩ <;> simp [h]

theorem batchFold_succ (oracle : ℕ → AttemptOutcome) (a b n : ℕ) (st : GenState) :
    batchFold oracle a b (n + 1) st
      = processResult (oracle (a + n)) (b + n + 1) (batchFold oracle a b n st) := by
  simp [batchFold, List.range_succ]

theorem batchFold_attempts (oracle : ℕ → AttemptOutcome) (a b n : ℕ) (st : GenState) :
    (batchFold oracle a b n st).attempts = st.attempts + n := by
  induction n with
  | zero => rfl
  | succ n ih => rw [batchFold_succ, processResult_attempts, ih]; omega

theorem batchFold_len_le (oracle : ℕ → AttemptOutcome) (a b n : ℕ) (st : GenState) :
    (batchFold oracle a b n st).combinations.length ≤ st.combinations.length + n := by
  induction n with
  | zero => exact le_refl _
  | succ n ih =>
      rw [batchFold_succ]
      calc (processResult (oracle (a + n)) (b + n + 1) (batchFold oracle a b n st)).combinations.length
          ≤ (batchFold oracle a b n st).combinations.length + 1 := processResult_len_le _ _ _
        _ ≤ st.combinations.length + n + 1 := by omega

theorem batchFold_inv (P : GenState → Prop) (oracle : ℕ → AttemptOutcome) (a b n : ℕ)
    (st : GenState)
    (h : ∀ s i, P s → P (processResult (oracle (a + i)) (b + i + 1) s)) (hP : P st) :
    P (batchFold oracle a b n st) := by
  induction n with
  | zero => exact hP
  | succ n ih =>
      rw [batchFold_succ]
      exact h _ n ih

theorem processRound_eq_batchFold (oracle : ℕ → AttemptOutcome) (count : ℕ) (st : GenState) :
    processRound oracle count st
      = batchFold oracle st.attempts st.combinations.length
          (min (min 50 count) (count - st.combinations.length)) st := rfl

theorem processRound_attempts (oracle : ℕ → AttemptOutcome) (count : ℕ) (st : GenState) :
    (processRound oracle count st).attempts
      = st.attempts + min (min 50 count) (count - st.combinations.length) := by
  rw [processRound_eq_batchFold, batchFold_attempts]

theorem processRound_attempts_lt (oracle : ℕ → AttemptOutcome) (count : ℕ) (st : GenState)
    (h : st.combinations.length < count) :
    st.attempts < (processRound oracle count st).attempts := by
  rw [processRound_attempts]
  have h1 : 1 ≤ min 50 count := by omega
  have h2 : 1 ≤ count - st.combinations.length := by omega
  omega

theorem genLoop_inv (P : GenState → Prop) (oracle : ℕ → AttemptOutcome)
    (count maxAttempts : ℕ)
    (h : ∀ st, st.combinations.length < count → st.attempts < maxAttempts →
      P st → P (processRound oracle count st)) :
    ∀ fuel st, P st → P (genLoop oracle count maxAttempts fuel st) := by
  intro fuel
  induction fuel with
  | zero => intro st hP; exact hP
  | succ fuel ih =>
      intro st hP
      rw [genLoop]
      split
      · next hcond => exact ih _ (h st hcond.1 hcond.2 hP)
      · exact hP

theorem genLoop_fuel_eq (oracle : ℕ → AttemptOutcome) (count maxAttempts : ℕ) :
    ∀ f1 f2 st, maxAttempts - st.attempts < f1 → maxAttempts - st.attempts < f2 →
      genLoop oracle count maxAttempts f1 st = genLoop oracle count maxAttempts f2 st := by
  intro f1
  induction f1 with
  | zero => intro f2 st h1 _; omega
  | succ n ih =>
      intro f2 st h1 h2
      cases f2 with
      | zero => omega
      | succ m =>
          rw [genLoop, genLoop]
          split
          · next hcond =>
              have hstep : st.attempts < (processRound oracle count st).attempts :=
                processRound_attempts_lt oracle count st hcond.1
              have hlt : st.attempts < maxAttempts := hcond.2
              exact ih m (processRound oracle count st) (by omega) (by omega)
          · rfl

/-! Claim C5: termination and the attempt budget. -/

/-- Counterexample to C5: with three combinations requested, a first attempt
that succeeds and every further attempt failing recoverably, the loop checks
the cap only at round boundaries, and the final round (entered at 29 settled
attempts, below the cap of 30) settles two more attempts, for a total of 31
settled attempts, exceeding `maxAttempts = count * 10 = 30`. -/
theorem attempts_cap_exceeded :
    (generateCombinations c5Oracle 3 []).attempts = 31 ∧
    ¬((generateCombinations c5Oracle 3 []).attempts ≤ 3 * 10) := by
  refine ⟨by decide, by decide⟩

/-- C5 amended: `generateCombinations(count)` always terminates (the loop
result is independent of the fuel once the fuel exceeds `count * 10`), and
the number of settled attempts is bounded by
`count * 10 + min 50 count` (the cap is checked only at round starts, so the
final round can overshoot it by up to one batch width). -/
theorem generation_terminates_bounded (oracle : ℕ → AttemptOutcome) (count : ℕ)
    (used0 : List String) (fuel : ℕ) (hf : count * 10 + 1 ≤ fuel) :
    genLoop oracle count (count * 10) fuel (initialGenState used0)
      = generateCombinations oracle count used0 ∧
    (generateCombinations oracle count used0).attempts ≤ count * 10 + min 50 count := by
  constructor
  · exact genLoop_fuel_eq oracle count (count * 10) fuel (count * 10 + 1)
      (initialGenState used0) (by simp [initialGenState]; omega)
      (by simp [initialGenState])
  · have := genLoop_inv (fun st => st.attempts ≤ count * 10 + min 50 count)
      oracle count (count * 10)
      (fun st hlen hatt hP => by
        show (processRound oracle count st).attempts ≤ count * 10 + min 50 count
        rw [processRound_attempts]
        have hb : min (min 50 count) (count - st.combinations.length) ≤ min 50 count :=
          min_le_left _ _
        have hP2 : st.attempts ≤ count * 10 + min 50 count := hP
        omega)
      (count * 10 + 1) (initialGenState used0) (by simp [initialGenState])
    exact this

/-- Witness for C5 amended at a concrete input. -/
theorem generation_terminates_bounded_witness :
    0 * 10 + 1 ≤ 1 ∧
    (genLoop (fun _ => AttemptOutcome.rejected true) 0 (0 * 10) 1 (initialGenState [])
      = generateCombinations (fun _ => AttemptOutcome.rejected true) 0 [] ∧
    (generateCombinations (fun _ => AttemptOutcome.rejected true) 0 []).attempts
      ≤ 0 * 10 + min 50 0) :=
  ⟨by decide,
   generation_terminates_bounded (fun _ => AttemptOutcome.rejected true) 0 [] 1 (by decide)⟩

/-! Claim C6: failed attempts never escape, shortfall is a shorter list. -/

/-- C6. The orchestrator handles every settled attempt without raising: the
return value is a plain list of length at most `count` (a shortfall is a
shorter list, not an exception — the embedding of `generateCombinations` has
no error channel because the source result loop catches both settlement
branches), a rejected attempt (recoverable or not) leaves the accepted list
unchanged while the attempt counter advances, and a non-recoverable
rejection is logged (the log counter advances) without aborting the batch. -/
theorem errors_never_escape (oracle : ℕ → AttemptOutcome) (count : ℕ)
    (used0 : List String) :
    (generateCombinations oracle count used0).combinations.length ≤ count ∧
    (∀ (recoverable : Bool) (launchId : ℕ) (st : GenState),
      (processResult (.rejected recoverable) launchId st).combinations
        = st.combinations ∧
      (processResult (.rejected recoverable) launchId st).attempts
        = st.attempts + 1) ∧
    (∀ (launchId : ℕ) (st : GenState),
      (processResult (.rejected false) launchId st).fatalLogged
        = st.fatalLogged + 1) := by
  refine ⟨?_, ?_, ?_⟩
  · have := genLoop_inv (fun st => st.combinations.length ≤ count)
      oracle count (count * 10)
      (fun st hlen hatt hP => by
        show (processRound oracle count st).combinations.length ≤ count
        rw [processRound_eq_batchFold]
        have h1 := batchFold_len_le oracle st.attempts st.combinations.length
          (min (min 50 count) (count - st.combinations.length)) st
        have h2 : min (min 50 count) (count - st.combinations.length)
            ≤ count - st.combinations.length := min_le_right _ _
        have hP2 : st.combinations.length ≤ count := hP
        omega)
      (count * 10 + 1) (initialGenState used0) (by simp [initialGenState])
    exact this
  · intro r launchId st
    cases r <;> exact ⟨rfl, rfl⟩
  · intro launchId st
    rfl

/-! Claim C1: accepted combinations are pairwise signature-distinct. -/

theorem processResult_keys_inv (o : AttemptOutcome) (launchId : ℕ) (st : GenState)
    (h1 : st.combinations.Pairwise
      (fun x y => getCombinationKey x.traits ≠ getCombinationKey y.traits))
    (h2 : ∀ cb ∈ st.combinations, st.used.contains (getCombinationKey cb.traits) = true) :
    (processResult o launchId st).combinations.Pairwise
      (fun x y => getCombinationKey x.traits ≠ getCombinationKey y.traits) ∧
    ∀ cb ∈ (processResult o launchId st).combinations,
      (processResult o launchId st).used.contains (getCombinationKey cb.traits) = true := by
  rcases processResult_cases o launchId st with ⟨hc, hu⟩ | ⟨tr, _, hfresh, hc, hu⟩
  · rw [hc, hu]
    exact ⟨h1, h2⟩
  · rw [hc, hu]
    constructor
    · rw [List.pairwise_append]
      refine ⟨h1, by simp, ?_⟩
      intro x hx y hy
      have hxu := (contains_iff_mem _ _).mp (h2 x hx)
      have hyt : y = (⟨launchId, tr⟩ : Combination) := by simpa using hy
      subst hyt
      intro hkey
      rw [hkey] at hxu
      have : st.used.contains (getCombinationKey (⟨launchId, tr⟩ : Combination).traits)
          = true := (contains_iff_mem _ _).mpr hxu
      rw [this] at hfresh
      exact Bool.noConfusion hfresh
    · intro cb hcb
      rcases List.mem_append.mp hcb with hcb | hcb
      · have hmem := (contains_iff_mem _ _).mp (h2 cb hcb)
        exact (contains_iff_mem _ _).mpr (List.mem_cons_of_mem _ hmem)
      · have hcbe : cb = (⟨launchId, tr⟩ : Combination) := by simpa using hcb
        subst hcbe
        simp

theorem processRound_keys_inv (oracle : ℕ → AttemptOutcome) (count : ℕ) (st : GenState)
    (h1 : st.combinations.Pairwise
      (fun x y => getCombinationKey x.traits ≠ getCombinationKey y.traits))
    (h2 : ∀ cb ∈ st.combinations, st.used.contains (getCombinationKey cb.traits) = true) :
    (processRound oracle count st).combinations.Pairwise
      (fun x y => getCombinationKey x.traits ≠ getCombinationKey y.traits) ∧
    ∀ cb ∈ (processRound oracle count st).combinations,
      (processRound oracle count st).used.contains (getCombinationKey cb.traits) = true := by
  rw [processRound_eq_batchFold]
  exact batchFold_inv
    (fun s => s.combinations.Pairwise
        (fun x y => getCombinationKey x.traits ≠ getCombinationKey y.traits) ∧
      ∀ cb ∈ s.combinations, s.used.contains (getCombinationKey cb.traits) = true)
    oracle st.attempts st.combinations.length _ st
    (fun s i hs => processResult_keys_inv _ _ s hs.1 hs.2) ⟨h1, h2⟩

/-- C1. Within one call of `generateCombinations`, the accepted combinations
are pairwise distinct under the canonical signature `getCombinationKey`
(sorted `category:name` pairs joined into a string): each accepted key is
absent from the `usedCombinations` set at acceptance time and added to it. -/
theorem generation_keys_pairwise_distinct (oracle : ℕ → AttemptOutcome) (count : ℕ)
    (used0 : List String) :
    (generateCombinations oracle count used0).combinations.Pairwise
      (fun x y => getCombinationKey x.traits ≠ getCombinationKey y.traits) := by
  have := genLoop_inv
    (fun st => st.combinations.Pairwise
        (fun x y => getCombinationKey x.traits ≠ getCombinationKey y.traits) ∧
      ∀ cb ∈ st.combinations, st.used.contains (getCombinationKey cb.traits) = true)
    oracle count (count * 10)
    (fun st _ _ hP => processRound_keys_inv oracle count st hP.1 hP.2)
    (count * 10 + 1) (initialGenState used0) (by simp [initialGenState])
  exact this.1

/-! Claim C2: id assignment. -/

theorem batchFold_id_inv (oracle : ℕ → AttemptOutcome) (a n : ℕ) (st : GenState)
    (hIdx : ∀ j, j < st.combinations.length →
      j + 1 ≤ (st.combinations.getD j default).id) :
    (batchFold oracle a st.combinations.length n st).combinations.length
        ≤ st.combinations.length + n ∧
    ∀ j, j < (batchFold oracle a st.combinations.length n st).combinations.length →
      j + 1 ≤ ((batchFold oracle a st.combinations.length n st).combinations.getD
        j default).id := by
  induction n with
  | zero => exact ⟨by simp [batchFold], hIdx⟩
  | succ n ih =>
      obtain ⟨hlen, hidv⟩ := ih
      rw [batchFold_succ]
      rcases processResult_cases (oracle (a + n)) (st.combinations.length + n + 1)
          (batchFold oracle a st.combinations.length n st) with
        ⟨hc, _⟩ | ⟨tr, _, _, hc, _⟩
      · rw [hc]
        exact ⟨by omega, hidv⟩
      · rw [hc]
        refine ⟨by simp; omega, ?_⟩
        intro j hj
        simp only [List.length_append, List.length_cons, List.length_nil] at hj
        by_cases hjl : j < (batchFold oracle a st.combinations.length n st).combinations.length
        · rw [List.getD_append _ _ _ _ hjl]
          exact hidv j hjl
        · have hje : j = (batchFold oracle a st.combinations.length n st).combinations.length := by
            omega
          subst hje
          rw [List.getD_append_right _ _ _ _ (le_refl _)]
          simp only [Nat.sub_self, List.getD_cons_zero]
          omega

/-- Counterexample to C2: with two combinations requested, the first attempt
failing recoverably and both later attempts succeeding with distinct
signatures, the run returns two combinations whose ids are `[2, 2]`: the
first appended combination carries id 2 (its id was fixed at launch as
`combinations.length + i + 1`), not id 1, and the second appended carries the
repeated id 2, so ids are neither assigned in acceptance order starting at 1
nor strictly increasing. -/
theorem ids_not_acceptance_order :
    (generateCombinations c2Oracle 2 []).combinations.map Combination.id = [2, 2] ∧
    [2, 2] ≠ [1, 2] :=
  ⟨by decide, by decide⟩

/-- C2 amended: ids are fixed at launch time as (accepted count at round
start) + (batch slot) + 1, so the i-th appended combination carries an id of
AT LEAST i (counting from 1); when attempts fail or are discarded as
duplicates, later ids can repeat or decrease across rounds, so the exact
value i and strict increase are not guaranteed. -/
theorem ids_at_least_position (oracle : ℕ → AttemptOutcome) (count : ℕ)
    (used0 : List String) (j : ℕ)
    (h : j < (generateCombinations oracle count used0).combinations.length) :
    j + 1 ≤ ((generateCombinations oracle count used0).combinations.getD j default).id := by
  have := genLoop_inv
    (fun st => ∀ j, j < st.combinations.length →
      j + 1 ≤ (st.combinations.getD j default).id)
    oracle count (count * 10)
    (fun st _ _ hP => by
      rw [processRound_eq_batchFold]
      exact (batchFold_id_inv oracle st.attempts _ st hP).2)
    (count * 10 + 1) (initialGenState used0)
    (by intro j hj; simp [initialGenState] at hj)
  exact this j h

/-- Witness for C2 amended at the concrete counterexample run. -/
theorem ids_at_least_position_witness :
    0 < (generateCombinations c2Oracle 2 []).combinations.length ∧
    0 + 1 ≤ ((generateCombinations c2Oracle 2 []).combinations.getD 0 default).id :=
  ⟨by decide, ids_at_least_position c2Oracle 2 [] 0 (by decide)⟩

/-! Claims C3 and C9: the variable-shadowing slip in `applyDependentTraits`. -/

/-- C3 is a code bug: `applyDependentTraits` returns the empty list on EVERY
input (first conjunct), because the inner `const dependentTraits` of the
source shadows the accumulator of the same name, so the resolved dependent
trait is pushed onto the fetched catalog list instead. The remaining
conjuncts evaluate the code at a concrete failing input on which the claim
requires the dependent option to be appended: with rule `bg:Red` to
`body:Human`, a Red background already selected (trigger present), Human not
already selected, and Human resolvable from the catalog, the function still
returns no dependent traits. -/
theorem dependent_traits_never_added :
    (∀ (cfg : GeneratorConfig) (base : String → List Trait)
      (selected : List Trait) (c : Cache),
      (applyDependentTraits cfg base selected c).1 = []) ∧
    triggerIsSelected [redTrait] "bg:Red" = true ∧
    isAlreadySelected [redTrait] "body:Human" "Human" = false ∧
    ((getAvailableTraits depBase [] "body").1.find?
      (fun t => (splitOnChar '#' t.name).headD "" == "Human") = some humanTrait) ∧
    (applyDependentTraits depCfg depBase [redTrait] []).1 = [] := by
  refine ⟨?_, by decide, by decide, by decide, by decide⟩
  intro cfg base selected c
  cases h : cfg.dependent_traits <;> simp [applyDependentTraits, h]

/-- C9 is a code bug in the dependent-trait path: the shadowed `push` of
`applyDependentTraits` appends the resolved trait to the CACHED per-category
catalog list (the array returned by `LayerProcessor.getAvailableTraits` is
the cached array itself), so one attempt-level rule application grows the
cached `body` list from one Human entry to two — the cached per-category
trait lists are NOT unchanged by every attempt. -/
theorem dependent_resolution_mutates_catalog_cache :
    (applyDependentTraits depCfg depBase [redTrait] [("body", [humanTrait])]).2
      = [("body", [humanTrait, humanTrait])] ∧
    ([("body", [humanTrait, humanTrait])] : Cache) ≠ [("body", [humanTrait])] :=
  ⟨by decide, by decide⟩

/-! Claims C4 and C8: structure of the per-attempt pipeline. -/

theorem assocLookup_mem {α : Type} (m : List (String × α)) (k : String) (v : α)
    (h : assocLookup m k = some v) : (k, v) ∈ m := by
  induction m with
  | nil => simp [assocLookup] at h
  | cons p ps ih =>
      obtain ⟨a, b⟩ := p
      by_cases heq : a = k
      · subst heq
        have hb : some b = some v := by simpa [assocLookup] using h
        obtain rfl := Option.some.inj hb
        exact List.mem_cons_self _ _
      · simp only [assocLookup, heq, if_false] at h
        exact List.mem_cons_of_mem _ (ih h)

theorem getAvailableTraits_fst_type (base : String → List Trait)
    (hbase : ∀ s, ∀ t ∈ base s, t.type = s) (c : Cache) (k : String) (hc : CacheWT c) :
    ∀ t ∈ (getAvailableTraits base c k).1, t.type = k := by
  intro t ht
  rcases h : cacheLookup c k with _ | l <;>
    simp only [getAvailableTraits, h] at ht
  · exact hbase k t ht
  · exact hc (k, l) (assocLookup_mem c k l h) t ht

theorem getAvailableTraits_snd_WT (base : String → List Trait)
    (hbase : ∀ s, ∀ t ∈ base s, t.type = s) (c : Cache) (k : String) (hc : CacheWT c) :
    CacheWT (getAvailableTraits base c k).2 := by
  rcases h : cacheLookup c k with _ | l <;>
    simp only [getAvailableTraits, h]
  · intro p hp t ht
    rcases List.mem_cons.mp hp with rfl | hp
    · exact hbase k t ht
    · exact hc p hp t ht
  · exact hc

theorem cacheUpdate_WT (c : Cache) (k : String) (v : List Trait) (hc : CacheWT c)
    (hv : ∀ t ∈ v, t.type = k) : CacheWT (cacheUpdate c k v) := by
  intro p hp t ht
  simp only [cacheUpdate, List.mem_map] at hp
  obtain ⟨q, hq, hpq⟩ := hp
  by_cases heq : q.1 = k
  · rw [if_pos heq] at hpq
    rw [← hpq] at ht ⊢
    exact hv t ht
  · rw [if_neg heq] at hpq
    rw [← hpq] at ht ⊢
    exact hc q hq t ht

theorem applyForcedPairingsGo_spec (base : String → List Trait)
    (hbase : ∀ s, ∀ t ∈ base s, t.type = s) (traitType : String) (sel : List Trait) :
    ∀ (rules : List (String × String)) (c : Cache), CacheWT c →
      CacheWT (applyForcedPairingsGo base traitType sel rules c).2 ∧
      ∀ ft, (applyForcedPairingsGo base traitType sel rules c).1 = some ft →
        ft.type = traitType := by
  intro rules
  induction rules with
  | nil =>
      intro c hc
      exact ⟨hc, fun ft h => by simp [applyForcedPairingsGo] at h⟩
  | cons rule rest ih =>
      intro c hc
      obtain ⟨trig, fk⟩ := rule
      simp only [applyForcedPairingsGo]
      split
      · split
        · split
          · split
            · next ft hfind =>
                refine ⟨getAvailableTraits_snd_WT base hbase c traitType hc, ?_⟩
                intro ft2 hft2
                simp only [Prod.mk.injEq] at hft2 ⊢
                have hmem := List.mem_of_find?_eq_some hfind
                have := getAvailableTraits_fst_type base hbase c traitType hc ft hmem
                simp only [Option.some.injEq] at hft2
                rw [← hft2]
                exact this
            · exact ih _ (getAvailableTraits_snd_WT base hbase c traitType hc)
          · exact ih c hc
        · exact ih c hc
      · exact ih c hc

theorem applyForcedPairings_spec (cfg : GeneratorConfig) (base : String → List Trait)
    (hbase : ∀ s, ∀ t ∈ base s, t.type = s) (traitType : String) (sel : List Trait)
    (c : Cache) (hc : CacheWT c) :
    CacheWT (applyForcedPairings cfg base traitType sel c).2 ∧
    ∀ ft, (applyForcedPairings cfg base traitType sel c).1 = some ft →
      ft.type = traitType := by
  rcases hfp : cfg.forced_pairings with _ | pairings <;>
    simp only [applyForcedPairings, hfp]
  · exact ⟨hc, fun ft h => by simp at h⟩
  · exact applyForcedPairingsGo_spec base hbase traitType sel pairings c hc

theorem dependentRuleStep_WT (base : String → List Trait)
    (hbase : ∀ s, ∀ t ∈ base s, t.type = s) (sel : List Trait) (c : Cache)
    (rule : String × String) (hc : CacheWT c) :
    CacheWT (dependentRuleStep base sel c rule) := by
  obtain ⟨trig, dk⟩ := rule
  simp only [dependentRuleStep]
  split
  · split
    · split
      · next f hfind =>
          apply cacheUpdate_WT _ _ _
            (getAvailableTraits_snd_WT base hbase c _ hc)
          intro t ht
          rcases List.mem_append.mp ht with ht | ht
          · exact getAvailableTraits_fst_type base hbase c _ hc t ht
          · have : t = f := by simpa using ht
            subst this
            exact getAvailableTraits_fst_type base hbase c _ hc t
              (List.mem_of_find?_eq_some hfind)
      · exact getAvailableTraits_snd_WT base hbase c _ hc
    · exact hc
  · exact hc

theorem applyDependentTraits_fst (cfg : GeneratorConfig) (base : String → List Trait)
    (sel : List Trait) (c : Cache) :
    (applyDependentTraits cfg base sel c).1 = [] := by
  rcases h : cfg.dependent_traits with _ | deps <;>
    simp [applyDependentTraits, h]

theorem applyDependentTraits_snd_WT (cfg : GeneratorConfig) (base : String → List Trait)
    (hbase : ∀ s, ∀ t ∈ base s, t.type = s) (sel : List Trait) (c : Cache)
    (hc : CacheWT c) :
    CacheWT (applyDependentTraits cfg base sel c).2 := by
  rcases h : cfg.dependent_traits with _ | deps <;>
    simp only [applyDependentTraits, h]
  · exact hc
  · clear h
    induction deps generalizing c with
    | nil => exact hc
    | cons d rest ih =>
        simp only [List.foldl_cons]
        exact ih _ (dependentRuleStep_WT base hbase sel c d hc)

theorem mem_applyIncompatibilityRules (cfg : GeneratorConfig)
    (avail sel : List Trait) (t : Trait)
    (h : t ∈ applyIncompatibilityRules cfg avail sel) : t ∈ avail := by
  rcases hcfg : cfg.incompatible_traits with _ | m <;>
    simp only [applyIncompatibilityRules, hcfg] at h
  · exact h
  · exact List.mem_of_mem_filter h

theorem mem_applyExclusiveGroupRules (cfg : GeneratorConfig) (traitType : String)
    (avail sel : List Trait) (t : Trait)
    (h : t ∈ applyExclusiveGroupRules cfg traitType avail sel) : t ∈ avail := by
  rcases hcfg : cfg.exclusive_groups with _ | groups <;>
    simp only [applyExclusiveGroupRules, hcfg] at h
  · exact h
  · split at h
    · exact h
    · split at h
      all_goals first
        | exact List.mem_of_mem_filter h
        | exact h

theorem setWeightOfFirst_map_pair (p : Trait → Bool) (w : ℚ) (l : List Trait) :
    (setWeightOfFirst p w l).map (fun t => (t.type, t.name))
      = l.map (fun t => (t.type, t.name)) := by
  induction l with
  | nil => rfl
  | cons x xs ih =>
      simp only [setWeightOfFirst]
      split <;> simp [ih]

theorem foldl_map_pair_inv {β : Type} (g : List Trait → β → List Trait)
    (h : ∀ acc b, (g acc b).map (fun t => (t.type, t.name))
      = acc.map (fun t => (t.type, t.name))) :
    ∀ (l : List β) (acc : List Trait),
      (l.foldl g acc).map (fun t => (t.type, t.name))
        = acc.map (fun t => (t.type, t.name)) := by
  intro l
  induction l with
  | nil => intro acc; rfl
  | cons b bs ih =>
      intro acc
      simp only [List.foldl_cons]
      rw [ih (g acc b), h acc b]

theorem applyConditionalRarity_map_pair (cfg : GeneratorConfig) (l sel : List Trait) :
    (applyConditionalRarity cfg l sel).map (fun t => (t.type, t.name))
      = l.map (fun t => (t.type, t.name)) := by
  rcases hcfg : cfg.conditional_rarity with _ | rules <;>
    simp only [applyConditionalRarity, hcfg]
  exact foldl_map_pair_inv _
    (fun acc rule => by
      split
      · exact foldl_map_pair_inv _
          (fun acc2 adj => setWeightOfFirst_map_pair _ _ acc2) rule.2 acc
      · rfl)
    rules l

theorem selectScan_mem (q : ℚ) (l : List Trait) (t : Trait)
    (h : selectScan q l = some t) : t ∈ l := by
  induction l generalizing q with
  | nil => simp [selectScan] at h
  | cons x xs ih =>
      simp only [selectScan] at h
      split at h
      · simp only [Option.some.injEq] at h
        rw [← h]
        exact List.mem_cons_self _ _
      · exact List.mem_cons_of_mem _ (ih _ h)

theorem weightedRandomSelect_mem (r : ℚ) (l : List Trait) (t : Trait)
    (h : weightedRandomSelect r l = .ok t) : t ∈ l := by
  match l with
  | [] => simp [weightedRandomSelect] at h
  | [x] =>
      simp only [weightedRandomSelect, Except.ok.injEq] at h
      rw [← h]
      exact List.mem_cons_self _ _
  | x :: y :: ys =>
      simp only [weightedRandomSelect, Except.ok.injEq] at h
      rcases hscan : selectScan (r * ((x :: y :: ys).foldl (fun s u => s + u.weight) 0))
          (x :: y :: ys) with _ | u
      · rw [hscan] at h
        simp only [Option.getD_none] at h
        rw [← h]
        have := List.getLastD_mem_cons (x :: y :: ys) x
        rcases List.mem_cons.mp this with h2 | h2
        · rw [h2]; exact List.mem_cons_self _ _
        · exact h2
      · rw [hscan] at h
        simp only [Option.getD_some] at h
        rw [← h]
        exact selectScan_mem _ _ _ hscan

theorem generateLayers_types (cfg : GeneratorConfig) (base : String → List Trait)
    (rand : ℕ → ℚ) (hbase : ∀ s, ∀ t ∈ base s, t.type = s) :
    ∀ (layers : List String) (idx : ℕ) (selected : List Trait) (c : Cache)
      (out : List Trait) (c2 : Cache), CacheWT c →
      generateLayers cfg base rand layers idx selected c = (.ok out, c2) →
      out.map Trait.type = selected.map Trait.type ++ layers := by
  intro layers
  induction layers with
  | nil =>
      intro idx selected c out c2 hc h
      simp only [generateLayers, Prod.mk.injEq, Except.ok.injEq] at h
      rw [← h.1]
      simp
  | cons traitType rest ih =>
      intro idx selected c out c2 hc h
      have hcWT1 : CacheWT (getAvailableTraits base c traitType).2 :=
        getAvailableTraits_snd_WT base hbase c traitType hc
      have hFspec := applyForcedPairings_spec cfg base hbase traitType selected
        (getAvailableTraits base c traitType).2 hcWT1
      simp only [generateLayers] at h
      rcases hF : (applyForcedPairings cfg base traitType selected
          (getAvailableTraits base c traitType).2).1 with _ | ft
      · simp only [hF, applyDependentTraits_fst, List.append_nil] at h
        split at h
        · next hcond => exact absurd hcond (by simp)
        · split at h
          · exact absurd h (by simp)
          · split at h
            · next st' hsel =>
                have hcWT3 : CacheWT (applyDependentTraits cfg base selected
                    (applyForcedPairings cfg base traitType selected
                      (getAvailableTraits base c traitType).2).2).2 :=
                  applyDependentTraits_snd_WT cfg base hbase selected _ hFspec.1
                have hmap := ih (idx + 1) (selected ++ [st']) _ out c2 hcWT3 h
                have hmem3 : st' ∈ applyConditionalRarity cfg
                    (applyExclusiveGroupRules cfg traitType
                      (applyIncompatibilityRules cfg
                        (getAvailableTraits base c traitType).1 selected) selected)
                    selected :=
                  weightedRandomSelect_mem _ _ _ hsel
                have hpair : (st'.type, st'.name) ∈
                    (applyExclusiveGroupRules cfg traitType
                      (applyIncompatibilityRules cfg
                        (getAvailableTraits base c traitType).1 selected) selected).map
                      (fun t => (t.type, t.name)) := by
                  rw [← applyConditionalRarity_map_pair cfg _ selected]
                  exact List.mem_map_of_mem _ hmem3
                obtain ⟨u, hu2, hupair⟩ := List.mem_map.mp hpair
                have hu0 : u ∈ (getAvailableTraits base c traitType).1 :=
                  mem_applyIncompatibilityRules cfg _ selected u
                    (mem_applyExclusiveGroupRules cfg traitType _ selected u hu2)
                have hut : u.type = traitType :=
                  getAvailableTraits_fst_type base hbase c traitType hc u hu0
                have hst : st'.type = traitType := by
                  have := congrArg Prod.fst hupair
                  simp only at this
                  rw [← this]
                  exact hut
                rw [hmap]
                simp [hst]
            · next e hsel => exact absurd h (by simp)
      · simp only [hF] at h
        have hmap := ih (idx + 1) (selected ++ [ft]) _ out c2 hFspec.1 h
        have hft : ft.type = traitType := hFspec.2 ft hF
        rw [hmap]
        simp [hft]

theorem generateSingleCombination_types (cfg : GeneratorConfig)
    (base : String → List Trait) (rand : ℕ → ℚ) (id : ℕ) (c : Cache)
    (comb : Combination) (c2 : Cache)
    (hbase : ∀ s, ∀ t ∈ base s, t.type = s) (hc : CacheWT c)
    (h : generateSingleCombination cfg base rand id c = (.ok comb, c2)) :
    comb.traits.map Trait.type = cfg.trait_processing_order := by
  simp only [generateSingleCombination] at h
  split at h
  · next sel c3 heq =>
      have := generateLayers_types cfg base rand hbase cfg.trait_processing_order
        0 [] c sel c3 hc heq
      simp only [Prod.mk.injEq, Except.ok.injEq] at h
      rw [← h.1]
      simpa using this
  · simp at h

theorem generation_combinations_from_oracle (oracle : ℕ → AttemptOutcome) (count : ℕ)
    (used0 : List String) :
    ∀ cb ∈ (generateCombinations oracle count used0).combinations,
      ∃ i, oracle i = .fulfilled cb.traits := by
  have := genLoop_inv
    (fun st => ∀ cb ∈ st.combinations, ∃ i, oracle i = .fulfilled cb.traits)
    oracle count (count * 10)
    (fun st _ _ hP => by
      rw [processRound_eq_batchFold]
      refine batchFold_inv
        (fun s => ∀ cb ∈ s.combinations, ∃ i, oracle i = .fulfilled cb.traits)
        oracle st.attempts st.combinations.length _ st ?_ hP
      intro s i hs cb hcb
      rcases processResult_cases (oracle (st.attempts + i))
          (st.combinations.length + i + 1) s with ⟨hc, _⟩ | ⟨tr, ho, _, hc, _⟩
      · rw [hc] at hcb
        exact hs cb hcb
      · rw [hc] at hcb
        rcases List.mem_append.mp hcb with hcb | hcb
        · exact hs cb hcb
        · have : cb = ⟨st.combinations.length + i + 1, tr⟩ := by simpa using hcb
          subst this
          exact ⟨st.attempts + i, ho⟩)
    (count * 10 + 1) (initialGenState used0)
    (by intro cb hcb; simp [initialGenState] at hcb)
  exact this

theorem filter_type_length_eq_count (l : List Trait) (cat : String) :
    (l.filter (fun t => t.type == cat)).length = (l.map Trait.type).count cat := by
  induction l with
  | nil => rfl
  | cons x xs ih =>
      by_cases hx : x.type = cat
      · simp [List.filter_cons, List.count_cons, hx, ih]
      · simp [List.filter_cons, List.count_cons, hx, ih]

/-- C4. Every combination returned by `generateCombinations` carries exactly
one trait for each category of the configured processing order, in order:
its trait types are exactly `trait_processing_order` (and, when the order
has no duplicate categories, every category occurs exactly once — never zero
and never two). Hypotheses: the catalog tags traits with the category they
are stored under, and every fulfilled attempt outcome arises from a run of
`generateSingleCombination` over that catalog starting from a well-typed
cache. Entries can only arrive by plain sampling or forced pairing;
dependent-trait resolution appends nothing (its accumulator is shadowed),
so it cannot create a second entry for a category. -/
theorem every_combination_one_trait_per_category (oracle : ℕ → AttemptOutcome)
    (cfg : GeneratorConfig) (base : String → List Trait) (count : ℕ)
    (used0 : List String)
    (hbase : ∀ s, ∀ t ∈ base s, t.type = s)
    (horacle : ∀ i tr, oracle i = AttemptOutcome.fulfilled tr →
      ∃ rand id c c2 comb, CacheWT c ∧
        generateSingleCombination cfg base rand id c = (.ok comb, c2) ∧
        comb.traits = tr) :
    ∀ cb ∈ (generateCombinations oracle count used0).combinations,
      cb.traits.map Trait.type = cfg.trait_processing_order ∧
      (cfg.trait_processing_order.Nodup →
        ∀ cat ∈ cfg.trait_processing_order,
          (cb.traits.filter (fun t => t.type == cat)).length = 1) := by
  intro cb hcb
  obtain ⟨i, hi⟩ := generation_combinations_from_oracle oracle count used0 cb hcb
  obtain ⟨rand, id, c, c2, comb, hcWT, hrun, htr⟩ := horacle i cb.traits hi
  have hmap : cb.traits.map Trait.type = cfg.trait_processing_order := by
    rw [← htr]
    exact generateSingleCombination_types cfg base rand id c comb c2 hbase hcWT hrun
  refine ⟨hmap, fun hnd cat hcat => ?_⟩
  rw [filter_type_length_eq_count, hmap]
  exact List.count_eq_one_of_mem hnd hcat

/-- Witness for C4 at a concrete single-category scenario whose oracle
outcome is realized by a concrete `generateSingleCombination` run. -/
theorem every_combination_one_trait_per_category_witness :
    ((⟨1, [redTrait]⟩ : Combination) ∈
      (generateCombinations oneCatOracle 1 []).combinations) ∧
    (⟨1, [redTrait]⟩ : Combination).traits.map Trait.type
      = oneCatCfg.trait_processing_order := by
  have hbase : ∀ s, ∀ t ∈ oneCatBase s, t.type = s := by
    intro s t ht
    by_cases hs : s = "bg" <;> simp [oneCatBase, hs] at ht
    rw [ht, hs]
    rfl
  have horacle : ∀ i tr, oneCatOracle i = AttemptOutcome.fulfilled tr →
      ∃ rand id c c2 comb, CacheWT c ∧
        generateSingleCombination oneCatCfg oneCatBase rand id c = (.ok comb, c2) ∧
        comb.traits = tr := by
    intro i tr hfe
    have htr : tr = [redTrait] := by
      have : AttemptOutcome.fulfilled [redTrait] = AttemptOutcome.fulfilled tr := hfe
      cases this
      rfl
    subst htr
    refine ⟨fun _ => 0, 1, [], [("bg", [redTrait])], ⟨1, [redTrait]⟩, ?_, ?_, rfl⟩
    · intro p hp t ht
      simp at hp
    · decide
  have hmem : (⟨1, [redTrait]⟩ : Combination) ∈
      (generateCombinations oneCatOracle 1 []).combinations := by decide
  exact ⟨hmem,
    (every_combination_one_trait_per_category oneCatOracle oneCatCfg oneCatBase 1 []
      hbase horacle ⟨1, [redTrait]⟩ hmem).1⟩

theorem getTraitKeys_of_clean (t : Trait) (cat nm : String) (hty : t.type = cat)
    (hcl : cleanTraitName t.name = nm) (hne : nm ≠ "") :
    getTraitKeys t = some (nm, cat ++ ":" ++ nm) := by
  simp only [getTraitKeys, hcl, hty, if_neg hne]

theorem incompat_filter_blocks (cfg : GeneratorConfig)
    (hinc : cfg.incompatible_traits = some [("bg:Red", ["body:Robot"])])
    (avail sel : List Trait) (u s : Trait)
    (hu : u ∈ applyIncompatibilityRules cfg avail sel) (hs : s ∈ sel) :
    ¬(IsRed u ∧ IsRobot s) ∧ ¬(IsRobot u ∧ IsRed s) := by
  simp only [applyIncompatibilityRules, hinc] at hu
  have hpred := (List.mem_filter.mp hu).2
  constructor
  · rintro ⟨⟨hut, hun⟩, ⟨hst, hsn⟩⟩
    have hku : getTraitKeys u = some ("Red", "bg" ++ ":" ++ "Red") :=
      getTraitKeys_of_clean u "bg" "Red" hut hun (by decide)
    have hks : getTraitKeys s = some ("Robot", "body" ++ ":" ++ "Robot") :=
      getTraitKeys_of_clean s "body" "Robot" hst hsn (by decide)
    simp only [hku] at hpred
    rw [Bool.not_eq_true'] at hpred
    have hbody := (List.any_eq_false.mp hpred) s hs
    simp [hks, assocLookup] at hbody
  · rintro ⟨⟨hut, hun⟩, ⟨hst, hsn⟩⟩
    have hku : getTraitKeys u = some ("Robot", "body" ++ ":" ++ "Robot") :=
      getTraitKeys_of_clean u "body" "Robot" hut hun (by decide)
    have hks : getTraitKeys s = some ("Red", "bg" ++ ":" ++ "Red") :=
      getTraitKeys_of_clean s "bg" "Red" hst hsn (by decide)
    simp only [hku] at hpred
    rw [Bool.not_eq_true'] at hpred
    have hbody := (List.any_eq_false.mp hpred) s hs
    simp [hks, assocLookup] at hbody

theorem IsRed_of_pair_eq (u v : Trait) (h : (u.type, u.name) = (v.type, v.name))
    (hv : IsRed v) : IsRed u := by
  obtain ⟨h1, h2⟩ := Prod.mk.injEq .. ▸ h
  exact ⟨h1.symm ▸ hv.1.symm ▸ rfl, by rw [h2]; exact hv.2⟩

theorem IsRobot_of_pair_eq (u v : Trait) (h : (u.type, u.name) = (v.type, v.name))
    (hv : IsRobot v) : IsRobot u := by
  obtain ⟨h1, h2⟩ := Prod.mk.injEq .. ▸ h
  exact ⟨h1.symm ▸ hv.1.symm ▸ rfl, by rw [h2]; exact hv.2⟩

theorem generateLayers_noRR (cfg : GeneratorConfig) (base : String → List Trait)
    (rand : ℕ → ℚ)
    (hinc : cfg.incompatible_traits = some [("bg:Red", ["body:Robot"])])
    (hforced : cfg.forced_pairings = none) :
    ∀ (layers : List String) (idx : ℕ) (selected : List Trait) (c : Cache)
      (out : List Trait) (c2 : Cache), NoRR selected →
      generateLayers cfg base rand layers idx selected c = (.ok out, c2) →
      NoRR out := by
  intro layers
  induction layers with
  | nil =>
      intro idx selected c out c2 hno h
      simp only [generateLayers, Prod.mk.injEq, Except.ok.injEq] at h
      rw [← h.1]
      exact hno
  | cons traitType rest ih =>
      intro idx selected c out c2 hno h
      simp only [generateLayers] at h
      have hFnone : applyForcedPairings cfg base traitType selected
          (getAvailableTraits base c traitType).2
            = (none, (getAvailableTraits base c traitType).2) := by
        simp [applyForcedPairings, hforced]
      simp only [hFnone, applyDependentTraits_fst, List.append_nil] at h
      split at h
      · next hcond => exact absurd hcond (by simp)
      · split at h
        · exact absurd h (by simp)
        · split at h
          · next st' hsel =>
              refine ih (idx + 1) (selected ++ [st']) _ out c2 ?_ h
              rintro ⟨⟨t1, ht1m, hRed⟩, ⟨t2, ht2m, hRobot⟩⟩
              have hmem3 : st' ∈ applyConditionalRarity cfg
                  (applyExclusiveGroupRules cfg traitType
                    (applyIncompatibilityRules cfg
                      (getAvailableTraits base c traitType).1 selected) selected)
                  selected :=
                weightedRandomSelect_mem _ _ _ hsel
              have hpair : (st'.type, st'.name) ∈
                  (applyExclusiveGroupRules cfg traitType
                    (applyIncompatibilityRules cfg
                      (getAvailableTraits base c traitType).1 selected) selected).map
                    (fun t => (t.type, t.name)) := by
                rw [← applyConditionalRarity_map_pair cfg _ selected]
                exact List.mem_map_of_mem _ hmem3
              obtain ⟨u, hu2, hupair⟩ := List.mem_map.mp hpair
              have hu1 : u ∈ applyIncompatibilityRules cfg
                  (getAvailableTraits base c traitType).1 selected :=
                mem_applyExclusiveGroupRules cfg traitType _ selected u hu2
              rcases List.mem_append.mp ht1m with h1s | h1n
              · rcases List.mem_append.mp ht2m with h2s | h2n
                · exact hno ⟨⟨t1, h1s, hRed⟩, ⟨t2, h2s, hRobot⟩⟩
                · have h2e : t2 = st' := by simpa using h2n
                  subst h2e
                  have hRobotU : IsRobot u := IsRobot_of_pair_eq u t2 hupair hRobot
                  exact (incompat_filter_blocks cfg hinc _ selected u t1 hu1 h1s).2
                    ⟨hRobotU, hRed⟩
              · have h1e : t1 = st' := by simpa using h1n
                subst h1e
                rcases List.mem_append.mp ht2m with h2s | h2n
                · have hRedU : IsRed u := IsRed_of_pair_eq u t1 hupair hRed
                  exact (incompat_filter_blocks cfg hinc _ selected u t2 hu1 h2s).1
                    ⟨hRedU, hRobot⟩
                · have h2e : t2 = t1 := by simpa using h2n
                  rw [h2e] at hRobot
                  have : ("bg" : String) = "body" := by
                    rw [← hRed.1, ← hRobot.1]
                  exact absurd this (by decide)
          · next e hsel => exact absurd h (by simp)

theorem generateSingleCombination_noRR (cfg : GeneratorConfig)
    (base : String → List Trait) (rand : ℕ → ℚ) (id : ℕ) (c : Cache)
    (comb : Combination) (c2 : Cache)
    (hinc : cfg.incompatible_traits = some [("bg:Red", ["body:Robot"])])
    (hforced : cfg.forced_pairings = none)
    (h : generateSingleCombination cfg base rand id c = (.ok comb, c2)) :
    NoRR comb.traits := by
  simp only [generateSingleCombination] at h
  split at h
  · next sel c3 heq =>
      have := generateLayers_noRR cfg base rand hinc hforced
        cfg.trait_processing_order 0 [] c sel c3 (by rintro ⟨⟨t, ht, _⟩, _⟩; simp at ht) heq
      simp only [Prod.mk.injEq, Except.ok.injEq] at h
      rw [← h.1]
      exact this
  · simp at h

/-- C8. With `incompatible_traits` configured as mapping `bg:Red` to
`[body:Robot]` and no forced pairings, no accepted combination of a
`generateCombinations` run contains both a Red trait in category bg and a
Robot trait in category body (names compared after stripping the `#` suffix
and trimming): the bidirectional incompatibility filter removes the
conflicting candidate whichever of the two categories is processed later, so
the claimed scenario (bg processed before body) holds — no order hypothesis
is even needed. Hypothesis: every fulfilled attempt outcome arises from a
run of `generateSingleCombination` under this configuration. -/
theorem incompatibility_scenario (oracle : ℕ → AttemptOutcome)
    (cfg : GeneratorConfig) (base : String → List Trait) (count : ℕ)
    (used0 : List String)
    (hinc : cfg.incompatible_traits = some [("bg:Red", ["body:Robot"])])
    (hforced : cfg.forced_pairings = none)
    (horacle : ∀ i tr, oracle i = AttemptOutcome.fulfilled tr →
      ∃ rand id c c2 comb,
        generateSingleCombination cfg base rand id c = (.ok comb, c2) ∧
        comb.traits = tr) :
    ∀ cb ∈ (generateCombinations oracle count used0).combinations,
      ¬((∃ t ∈ cb.traits, t.type = "bg" ∧ cleanTraitName t.name = "Red") ∧
        (∃ t ∈ cb.traits, t.type = "body" ∧ cleanTraitName t.name = "Robot")) := by
  intro cb hcb
  obtain ⟨i, hi⟩ := generation_combinations_from_oracle oracle count used0 cb hcb
  obtain ⟨rand, id, c, c2, comb, hrun, htr⟩ := horacle i cb.traits hi
  have := generateSingleCombination_noRR cfg base rand id c comb c2 hinc hforced hrun
  rw [htr] at this
  exact this

/-- Witness for C8 at the concrete scenario catalog (one Red background, a
Robot and a Human body) whose oracle outcome is realized by a concrete
deterministic `generateSingleCombination` run that filters Robot out. -/
theorem incompatibility_scenario_witness :
    ((⟨1, [redTrait, humanTrait]⟩ : Combination) ∈
      (generateCombinations rrOracle 1 []).combinations) ∧
    ¬((∃ t ∈ [redTrait, humanTrait], t.type = "bg" ∧ cleanTraitName t.name = "Red") ∧
      (∃ t ∈ [redTrait, humanTrait], t.type = "body" ∧
        cleanTraitName t.name = "Robot")) := by
  have horacle : ∀ i tr, rrOracle i = AttemptOutcome.fulfilled tr →
      ∃ rand id c c2 comb,
        generateSingleCombination rrCfg rrBase rand id c = (.ok comb, c2) ∧
        comb.traits = tr := by
    intro i tr hfe
    have htr : tr = [redTrait, humanTrait] := by
      have : AttemptOutcome.fulfilled [redTrait, humanTrait]
          = AttemptOutcome.fulfilled tr := hfe
      cases this
      rfl
    subst htr
    exact ⟨fun _ => 0, 1, [],
      [("body", [robotTrait, humanTrait]), ("bg", [redTrait])],
      ⟨1, [redTrait, humanTrait]⟩, by decide, rfl⟩
  have hmem : (⟨1, [redTrait, humanTrait]⟩ : Combination) ∈
      (generateCombinations rrOracle 1 []).combinations := by decide
  exact ⟨hmem,
    incompatibility_scenario rrOracle rrCfg rrBase 1 [] rfl rfl horacle
      ⟨1, [redTrait, humanTrait]⟩ hmem⟩

end NftMaker
